import Mathlib

/-!
# SmartBackup: verification of the change-detection and retention engine

A shallow embedding of `smartbackup.py`. Filesystem paths and other strings
handled character-by-character are modelled as `List Char` (`PathStr`), so
that path joining is list append. Python dictionaries (the change index) are
modelled as association lists with first-key-wins lookup and in-place
overwrite. Fallible I/O operations on a file (stat, read for hashing, the
copy itself) are modelled by per-file success flags; the MD5 digest of a
readable file is an opaque string carried in the file's attributes
(`calculate_file_hash` in the source only ever compares digests for
equality).
-/

/-- A textual filesystem path (Python `str(path)`), as a list of characters. -/
abbrev PathStr := List Char

/-- `leadsB p s` is `True` iff `p` is a leading segment of `s`
(Python `s.startswith(p)`). -/
def leadsB : PathStr → PathStr → Bool
  | [], _ => true
  | _ :: _, [] => false
  | a :: as, b :: bs => if a = b then leadsB as bs else false

/-- `hasSub pat s` is `True` iff `pat` occurs contiguously inside `s`
(Python `pat in s` on strings). -/
def hasSub : PathStr → PathStr → Bool
  | pat, [] => pat.isEmpty
  | pat, c :: rest => leadsB pat (c :: rest) || hasSub pat rest

/-- First-match lookup in an association list (Python `dict` access). -/
def lookupA {α β : Type} [DecidableEq α] : List (α × β) → α → Option β
  | [], _ => none
  | (k, v) :: rest, a => if k = a then some v else lookupA rest a

/-- Overwrite-or-append update of an association list
(Python `d[k] = v`, preserving insertion order). -/
def updateA {α β : Type} [DecidableEq α] : List (α × β) → α → β → List (α × β)
  | [], a, b => [(a, b)]
  | (k, v) :: rest, a, b => if k = a then (a, b) :: rest else (k, v) :: updateA rest a b

/-- The observable per-run state of one source file. `hash` is the MD5 digest
its content would produce; `readOk`, `statOk`, `copyOk` record whether the
read for hashing, `stat`, and `shutil.copy2` succeed on it. -/
structure FileAttrs where
  size : Nat
  mtime : Nat
  hash : String
  readOk : Bool
  statOk : Bool
  copyOk : Bool
deriving DecidableEq, Repr

/-- The `{'size': ..., 'mtime': ..., 'hash': ...}` record stored in the
change index. -/
structure FileInfo where
  size : Nat
  mtime : Nat
  hash : String
deriving DecidableEq, Repr

/-- `calculate_file_hash`: MD5 of the file's bytes, or the empty-string
sentinel when the file cannot be opened/read. -/
def calculate_file_hash (a : FileAttrs) : String :=
  if a.readOk then a.hash else ""

/-- `get_file_info`: the stat+hash record of a file, or the empty-dict
sentinel (`none`) when `stat` raises. -/
def get_file_info (a : FileAttrs) : Option FileInfo :=
  if a.statOk then some ⟨a.size, a.mtime, calculate_file_hash a⟩ else none

/-- Per-backup-set slice of the change index: file path ↦ stored record
(`none` models the empty dict `{}` stored when `get_file_info` failed). -/
abbrev ConfigIndex := List (PathStr × Option FileInfo)

/-- The whole change index: backup-set name ↦ per-set slice. -/
abbrev ChangeIndex := List (PathStr × ConfigIndex)

/-- `.get('hash')` on a maybe-empty record. -/
def recHash (o : Option FileInfo) : Option String := o.map FileInfo.hash

/-- `.get('mtime')` on a maybe-empty record. -/
def recMtime (o : Option FileInfo) : Option Nat := o.map FileInfo.mtime

/-- `should_backup_file`: `True` when the path has no entry in the set's
slice of the index, else `True` iff the freshly computed hash or mtime
differs from the stored record's. -/
def should_backup_file (cfgIdx : ConfigIndex) (p : PathStr) (a : FileAttrs) : Bool :=
  match lookupA cfgIdx p with
  | none => true
  | some stored =>
      let current := get_file_info a
      decide (recHash current ≠ recHash stored) || decide (recMtime current ≠ recMtime stored)

/-- `should_exclude`: a path is excluded iff some pattern occurs in its text.
(`None`/empty pattern lists are both modelled by `[]`: nothing excluded.) -/
def should_exclude (p : PathStr) (pats : List PathStr) : Bool :=
  pats.any fun pat => hasSub pat p

-- ### Basic lemmas on the string and association-list primitives

theorem leadsB_append {p s : PathStr} (r : PathStr) (h : leadsB p s = true) :
    leadsB p (s ++ r) = true := by
  induction p generalizing s with
  | nil => rfl
  | cons a as ih =>
    cases s with
    | nil => simp [leadsB] at h
    | cons b bs =>
      simp only [leadsB] at h ⊢
      split at h
      · subst_vars
        simpa [leadsB] using ih h
      · exact absurd h (by simp)

theorem hasSub_nil_left (s : PathStr) : hasSub [] s = true := by
  cases s <;> simp [hasSub, leadsB, List.isEmpty]

theorem hasSub_of_leadsB {p s : PathStr} (h : leadsB p s = true) : hasSub p s = true := by
  cases p with
  | nil => exact hasSub_nil_left s
  | cons a as =>
    cases s with
    | nil => simp [leadsB] at h
    | cons b bs =>
      have hab : a = b := by
        by_contra hne
        simp [leadsB, hne] at h
      subst hab
      simp [hasSub, List.headD, h]

theorem leadsB_of_hasSub_cons {p : PathStr} {c : Char} {rest : PathStr}
    (h : hasSub p (c :: rest) = true)
    (h2 : hasSub p rest = false) : leadsB p (c :: rest) = true := by
  simp only [hasSub, Bool.or_eq_true] at h
  rcases h with h1 | h1
  · exact h1
  · rw [h1] at h2; exact absurd h2 (by simp)

theorem hasSub_append {p s : PathStr} (r : PathStr) (h : hasSub p s = true) :
    hasSub p (s ++ r) = true := by
  induction s with
  | nil =>
    have : p = [] := by
      cases p with
      | nil => rfl
      | cons a as => simp [hasSub, List.isEmpty] at h
    subst this
    exact hasSub_nil_left r
  | cons c cs ih =>
    by_cases hrest : hasSub p cs = true
    · have := ih hrest
      cases p with
      | nil => exact hasSub_nil_left _
      | cons a as => simp [hasSub, this]
    · have hl : leadsB p (c :: cs) = true :=
        leadsB_of_hasSub_cons h (by simpa using hrest)
      have := leadsB_append (s := c :: cs) r hl
      exact hasSub_of_leadsB (by simpa using this)

theorem lookupA_updateA_self {α β : Type} [DecidableEq α]
    (l : List (α × β)) (k : α) (v : β) : lookupA (updateA l k v) k = some v := by
  induction l with
  | nil => simp [updateA, lookupA]
  | cons h t ih =>
    obtain ⟨k', v'⟩ := h
    by_cases hk : k' = k
    · subst hk; simp [updateA, lookupA]
    · simp [updateA, lookupA, hk, ih]

theorem lookupA_updateA_ne {α β : Type} [DecidableEq α]
    (l : List (α × β)) (k : α) (v : β) (p : α) (hne : p ≠ k) :
    lookupA (updateA l k v) p = lookupA l p := by
  induction l with
  | nil =>
    simp only [updateA, lookupA]
    rw [if_neg (Ne.symm hne)]
  | cons h t ih =>
    obtain ⟨k', v'⟩ := h
    by_cases hk : k' = k
    · subst hk
      simp only [updateA, if_pos rfl, lookupA, if_neg (Ne.symm hne)]
    · simp only [updateA, if_neg hk, lookupA]
      by_cases hp : k' = p
      · simp [hp]
      · simp [hp, ih]

theorem updateA_updateA {α β : Type} [DecidableEq α]
    (l : List (α × β)) (k : α) (v w : β) :
    updateA (updateA l k v) k w = updateA l k w := by
  induction l with
  | nil => simp [updateA]
  | cons h t ih =>
    obtain ⟨k', v'⟩ := h
    by_cases hk : k' = k
    · subst hk; simp [updateA]
    · simp [updateA, hk, ih]

-- ### The source tree and the `os.walk` traversal

/-- A directory's contents: a sequence of named files and named
subdirectories, in listing order. -/
inductive FForest where
  | nil : FForest
  | file (name : PathStr) (attrs : FileAttrs) (rest : FForest) : FForest
  | dir (name : PathStr) (children : FForest) (rest : FForest) : FForest
deriving DecidableEq, Repr

/-- Join a directory path and an entry name (`os.path.join` on Linux). -/
def pathJoin (p n : PathStr) : PathStr := p ++ '/' :: n

/-- The plain files directly inside a directory (the `files` component that
`os.walk` yields for that directory). -/
def dirFiles : FForest → List (PathStr × FileAttrs)
  | .nil => []
  | .file n a rest => (n, a) :: dirFiles rest
  | .dir _ _ rest => dirFiles rest

/-- One file reached by the walk: the directory (`root`) it was yielded
under, its full path, and its attributes. -/
structure FileEntry where
  root : PathStr
  path : PathStr
  attrs : FileAttrs
deriving DecidableEq, Repr

/-- The files yielded by `os.walk` strictly below a directory at path `p`
with contents `f` (top-down: each subdirectory's own files first, then its
descendants), excluding the files directly at `p` itself. -/
def walkSubs : PathStr → FForest → List FileEntry
  | _, .nil => []
  | p, .file _ _ rest => walkSubs p rest
  | p, .dir n cs rest =>
      ((dirFiles cs).map fun fa => ⟨pathJoin p n, pathJoin (pathJoin p n) fa.1, fa.2⟩)
        ++ walkSubs (pathJoin p n) cs ++ walkSubs p rest

/-- All files yielded by `os.walk` on a source directory at path `p` with
contents `f`, with their roots. -/
def walkAt (p : PathStr) (f : FForest) : List FileEntry :=
  ((dirFiles f).map fun fa => ⟨p, pathJoin p fa.1, fa.2⟩) ++ walkSubs p f

/-- `DirIn s f q ds`: walking the tree rooted at path `s` with contents `f`
visits a directory whose full path is `q` and whose contents are `ds`
(the source root itself included). -/
inductive DirIn : PathStr → FForest → PathStr → FForest → Prop where
  | here (p : PathStr) (f : FForest) :
      DirIn p f p f
  | head (p n : PathStr) (cs rest : FForest) :
      DirIn p (.dir n cs rest) (pathJoin p n) cs
  | inside (p n q : PathStr) (cs ds rest : FForest) :
      DirIn (pathJoin p n) cs q ds → DirIn p (.dir n cs rest) q ds
  | skipFile (p n q : PathStr) (a : FileAttrs) (ds rest : FForest) :
      DirIn p rest q ds → DirIn p (.file n a rest) q ds
  | skipDir (p n q : PathStr) (cs ds rest : FForest) :
      DirIn p rest q ds → DirIn p (.dir n cs rest) q ds

-- ### Backup configurations and the snapshot builder

/-- `BackupConfig` (the `@dataclass` of the source). -/
structure BackupConfig where
  name : PathStr
  source_dirs : List PathStr
  destination : PathStr
  schedule : PathStr
  compression : Bool := true
  incremental : Bool := true
  exclude_patterns : List PathStr := []
  max_backups : Nat := 10
deriving DecidableEq, Repr

/-- The mutable state threaded through `create_backup`'s file loop. -/
structure RunSt where
  files_backed_up : Nat
  total_size : Nat
  cfgIdx : ConfigIndex
  copied : List PathStr
  attempted : List PathStr
deriving DecidableEq, Repr

/-- The body of `create_backup`'s inner loop for a single walked file:
root-level exclusion (`continue` before the file loop), file-level
exclusion, the incremental-mode change check, then the guarded copy.
Inside the `try` block, `copy2` comes first (`copyOk`), then the increment
of the counter, then `filepath.stat()` for the size (`statOk` — on failure
the counter is already incremented but the index is not updated), then the
index update with a fresh `get_file_info`. The `mkdir` of the destination
file's parent sits outside the `try` in the source and is assumed to
succeed (a writable destination); its failure would abort the whole run. -/
def processFile (cfg : BackupConfig) (e : FileEntry) (st : RunSt) : RunSt :=
  if should_exclude e.root cfg.exclude_patterns then st
  else if should_exclude e.path cfg.exclude_patterns then st
  else if cfg.incremental && !(should_backup_file st.cfgIdx e.path e.attrs) then st
  else if e.attrs.copyOk then
    let st1 : RunSt :=
      { st with
        attempted := st.attempted ++ [e.path]
        copied := st.copied ++ [e.path]
        files_backed_up := st.files_backed_up + 1 }
    if e.attrs.statOk then
      { st1 with
        total_size := st1.total_size + e.attrs.size
        cfgIdx := updateA st1.cfgIdx e.path (get_file_info e.attrs) }
    else st1
  else { st with attempted := st.attempted ++ [e.path] }

/-- Folding the file loop over a list of walked files. -/
def runL (cfg : BackupConfig) (l : List FileEntry) (st : RunSt) : RunSt :=
  l.foldl (fun st e => processFile cfg e st) st

/-- The walked files of all configured source directories, in order;
a source directory missing from the filesystem is skipped (warning only). -/
def entriesOf (cfg : BackupConfig) (fs : PathStr → Option FForest) : List FileEntry :=
  cfg.source_dirs.flatMap fun s =>
    match fs s with
    | none => []
    | some f => walkAt s f

/-- What one invocation of `create_backup` produces and reports. -/
structure BackupOutcome where
  success : Bool
  files_backed_up : Nat
  total_size : Nat
  copied : List PathStr
  attempted : List PathStr
  index : ChangeIndex
  snapshotDir : PathStr
deriving DecidableEq, Repr

/-- `create_backup`: look up the configuration (unknown name: report
failure before any I/O), form the `{name}_{timestamp}` snapshot directory —
`mkdir(parents=True, exist_ok=True)` succeeds whether or not that directory
already exists, so `destPreexists` does not alter the run — ensure the
set's slice of the index exists, walk and process every source file, and
return success with the updated index. -/
def create_backup (configs : List (PathStr × BackupConfig)) (index : ChangeIndex)
    (fs : PathStr → Option FForest) (destPreexists : Bool)
    (config_name : PathStr) (timestamp : PathStr) : BackupOutcome :=
  match lookupA configs config_name with
  | none => ⟨false, 0, 0, [], [], index, []⟩
  | some cfg =>
      let snap := config_name ++ '_' :: timestamp
      let cfgIdx0 := (lookupA index config_name).getD []
      let st := runL cfg (entriesOf cfg fs) ⟨0, 0, cfgIdx0, [], []⟩
      ⟨true, st.files_backed_up, st.total_size, st.copied, st.attempted,
        updateA index config_name st.cfgIdx, snap⟩

-- ### The retention manager

/-- One entry directly under the destination directory: its name, its
filesystem modification time, whether it is a directory, and whether its
deletion (when attempted) succeeds. -/
structure DestEntry where
  name : PathStr
  mtime : Nat
  isDirE : Bool
  removeOk : Bool
deriving DecidableEq, Repr

/-- Sort order used by `cleanup_old_backups`: most recently modified first
(`key=lambda x: x.stat().st_mtime, reverse=True`, a stable sort). -/
def mtimeGE (a b : DestEntry) : Prop := b.mtime ≤ a.mtime

instance : DecidableRel mtimeGE := fun a b => Nat.decLe b.mtime a.mtime

instance : IsTotal DestEntry mtimeGE := ⟨fun a b => Nat.le_total b.mtime a.mtime⟩

instance : IsTrans DestEntry mtimeGE := ⟨fun _ _ _ h1 h2 => Nat.le_trans h2 h1⟩

/-- `cleanup_old_backups`: consider every destination entry whose name
starts with `{name}_`, order by modification time descending, keep the
first `max_backups`, and try to delete the rest — recursively (`rmtree`)
when the entry is a directory, singly (`unlink`) otherwise; a failed
deletion is logged and the entry stays. -/
structure CleanupResult where
  considered : List DestEntry
  sorted : List DestEntry
  kept : List DestEntry
  excess : List DestEntry
  deleted : List DestEntry
  failed : List DestEntry
  deletions : List (DestEntry × Bool)
deriving Repr

def cleanup_old_backups (cfg : BackupConfig) (entries : List DestEntry) : CleanupResult :=
  let backups := entries.filter fun e => leadsB (cfg.name ++ ['_']) e.name
  let sorted := backups.insertionSort mtimeGE
  let excess := sorted.drop cfg.max_backups
  { considered := backups
    sorted := sorted
    kept := sorted.take cfg.max_backups
    excess := excess
    deleted := excess.filter fun e => e.removeOk
    failed := excess.filter fun e => !e.removeOk
    deletions := (excess.filter fun e => e.removeOk).map fun e => (e, e.isDirE) }

-- ### Characterizing one step of the file loop

theorem runL_nil (cfg : BackupConfig) (st : RunSt) : runL cfg [] st = st := rfl

theorem runL_cons (cfg : BackupConfig) (e : FileEntry) (l : List FileEntry) (st : RunSt) :
    runL cfg (e :: l) st = runL cfg l (processFile cfg e st) := rfl

/-- `processFile` in guarded-branch normal form. -/
theorem processFile_eq (cfg : BackupConfig) (e : FileEntry) (st : RunSt) :
    processFile cfg e st =
      if should_exclude e.root cfg.exclude_patterns
          || should_exclude e.path cfg.exclude_patterns then st
      else if cfg.incremental && !(should_backup_file st.cfgIdx e.path e.attrs) then st
      else if e.attrs.copyOk then
        if e.attrs.statOk then
          { st with
            attempted := st.attempted ++ [e.path]
            copied := st.copied ++ [e.path]
            files_backed_up := st.files_backed_up + 1
            total_size := st.total_size + e.attrs.size
            cfgIdx := updateA st.cfgIdx e.path (get_file_info e.attrs) }
        else
          { st with
            attempted := st.attempted ++ [e.path]
            copied := st.copied ++ [e.path]
            files_backed_up := st.files_backed_up + 1 }
      else { st with attempted := st.attempted ++ [e.path] } := by
  by_cases h1 : should_exclude e.root cfg.exclude_patterns
  · simp [processFile, h1]
  · by_cases h2 : should_exclude e.path cfg.exclude_patterns
    · simp [processFile, h1, h2]
    · simp only [processFile, h1, h2, Bool.false_or, if_false, Bool.or_self]
      rfl

-- ### Fold lemmas about the file loop

/-- Every path in the final copied list either was there at the start or
belongs to a walked file that was not excluded and whose copy succeeded. -/
theorem runL_copied_src (cfg : BackupConfig) (l : List FileEntry) (st : RunSt) (p : PathStr)
    (h : p ∈ (runL cfg l st).copied) :
    p ∈ st.copied ∨ ∃ e, e ∈ l ∧ e.path = p ∧ e.attrs.copyOk = true ∧
      should_exclude e.root cfg.exclude_patterns = false ∧
      should_exclude e.path cfg.exclude_patterns = false := by
  induction l generalizing st with
  | nil => exact Or.inl (by simpa [runL] using h)
  | cons e l ih =>
    rw [runL_cons] at h
    rcases ih _ h with hmem | ⟨e', he', hrest⟩
    · rw [processFile_eq] at hmem
      split_ifs at hmem with h1 h2 h3 h4
      · exact Or.inl hmem
      · exact Or.inl hmem
      · simp only [List.mem_append, List.mem_singleton] at hmem
        rcases hmem with hmem | rfl
        · exact Or.inl hmem
        · simp only [Bool.or_eq_true, not_or, Bool.not_eq_true] at h1
          exact Or.inr ⟨e, List.mem_cons_self e l, rfl, h3, h1.1, h1.2⟩
      · simp only [List.mem_append, List.mem_singleton] at hmem
        rcases hmem with hmem | rfl
        · exact Or.inl hmem
        · simp only [Bool.or_eq_true, not_or, Bool.not_eq_true] at h1
          exact Or.inr ⟨e, List.mem_cons_self e l, rfl, h3, h1.1, h1.2⟩
      · exact Or.inl hmem
    · exact Or.inr ⟨e', List.mem_cons_of_mem e he', hrest⟩

/-- The copied list only grows, and the index is touched only at paths that
end up in the copied list. -/
theorem runL_frame (cfg : BackupConfig) (l : List FileEntry) (st : RunSt) (p : PathStr)
    (h : p ∉ (runL cfg l st).copied) :
    lookupA (runL cfg l st).cfgIdx p = lookupA st.cfgIdx p ∧ p ∉ st.copied := by
  induction l generalizing st with
  | nil => exact ⟨rfl, by simpa [runL] using h⟩
  | cons e l ih =>
    rw [runL_cons] at h ⊢
    obtain ⟨hidx, hmem⟩ := ih _ h
    rw [hidx]
    rw [processFile_eq] at hmem ⊢
    split_ifs at hmem ⊢ with h1 h2 h3 h4
    · exact ⟨rfl, hmem⟩
    · exact ⟨rfl, hmem⟩
    · simp only [List.mem_append, List.mem_singleton, not_or] at hmem
      exact ⟨lookupA_updateA_ne _ _ _ _ hmem.2, hmem.1⟩
    · simp only [List.mem_append, List.mem_singleton, not_or] at hmem
      exact ⟨rfl, hmem.1⟩
    · exact ⟨rfl, hmem⟩

/-- Keys are never removed from the per-set slice of the index. -/
theorem runL_keys (cfg : BackupConfig) (l : List FileEntry) (st : RunSt) (p : PathStr)
    (r : Option FileInfo) (h : lookupA st.cfgIdx p = some r) :
    ∃ r', lookupA (runL cfg l st).cfgIdx p = some r' := by
  induction l generalizing st r with
  | nil => exact ⟨r, by simpa [runL] using h⟩
  | cons e l ih =>
    rw [runL_cons]
    have hstep : ∃ r', lookupA (processFile cfg e st).cfgIdx p = some r' := by
      rw [processFile_eq]
      split_ifs with h1 h2 h3 h4
      · exact ⟨r, h⟩
      · exact ⟨r, h⟩
      · by_cases hp : p = e.path
        · exact ⟨get_file_info e.attrs, by
            rw [hp]; simpa using lookupA_updateA_self st.cfgIdx e.path _⟩
        · exact ⟨r, by simpa using (lookupA_updateA_ne st.cfgIdx e.path _ p hp).trans h⟩
      · exact ⟨r, h⟩
      · exact ⟨r, h⟩
    obtain ⟨r', h'⟩ := hstep
    exact ih _ _ h'

/-- The files-copied counter equals the length of the copied list. -/
theorem runL_count (cfg : BackupConfig) (l : List FileEntry) (st : RunSt)
    (h : st.files_backed_up = st.copied.length) :
    (runL cfg l st).files_backed_up = (runL cfg l st).copied.length := by
  induction l generalizing st with
  | nil => simpa [runL] using h
  | cons e l ih =>
    rw [runL_cons]
    apply ih
    rw [processFile_eq]
    split_ifs with h1 h2 h3 h4 <;> simp [h]

-- ### Paths produced by the walk extend their root

theorem walkSubs_path_ext :
    ∀ (f : FForest) (p : PathStr) (e : FileEntry), e ∈ walkSubs p f → ∃ r, e.path = p ++ r := by
  intro f
  induction f with
  | nil => intro p e h; simp [walkSubs] at h
  | file n a rest ih =>
    intro p e h
    rw [walkSubs] at h
    exact ih p e h
  | dir n cs rest ihcs ihrest =>
    intro p e h
    rw [walkSubs] at h
    simp only [List.mem_append, List.mem_map] at h
    rcases h with (⟨fa, _, rfl⟩ | h) | h
    · exact ⟨'/' :: n ++ '/' :: fa.1, by simp [pathJoin, List.append_assoc]⟩
    · obtain ⟨r, hr⟩ := ihcs (pathJoin p n) e h
      exact ⟨'/' :: n ++ r, by rw [hr]; simp [pathJoin, List.append_assoc]⟩
    · exact ihrest p e h

theorem walkAt_path_ext (p : PathStr) (f : FForest) (e : FileEntry) (h : e ∈ walkAt p f) :
    ∃ r, e.path = p ++ r := by
  rw [walkAt] at h
  simp only [List.mem_append, List.mem_map] at h
  rcases h with ⟨fa, _, rfl⟩ | h
  · exact ⟨'/' :: fa.1, by simp [pathJoin]⟩
  · exact walkSubs_path_ext f p e h

-- ### The change detector after an in-run index update

/-- The detector only inspects the index through `lookupA` at the file's
own path. -/
theorem should_backup_file_congr (i j : ConfigIndex) (p : PathStr) (a : FileAttrs)
    (h : lookupA i p = lookupA j p) :
    should_backup_file i p a = should_backup_file j p a := by
  unfold should_backup_file
  rw [h]

/-- A file whose stored record is exactly its freshly computed record is
reported unchanged. -/
theorem should_backup_file_stored_current (i : ConfigIndex) (p : PathStr) (a : FileAttrs)
    (h : lookupA i p = some (get_file_info a)) :
    should_backup_file i p a = false := by
  unfold should_backup_file
  rw [h]
  simp

/-- `unchangedRec i e`: the detector, against index slice `i`, reports the
walked file `e` unchanged. -/
def unchangedRec (i : ConfigIndex) (e : FileEntry) : Prop :=
  should_backup_file i e.path e.attrs = false

theorem processFile_cfgIdx_shape (cfg : BackupConfig) (e : FileEntry) (st : RunSt) :
    (processFile cfg e st).cfgIdx = st.cfgIdx
    ∨ (e.attrs.copyOk = true ∧ e.attrs.statOk = true ∧
        (processFile cfg e st).cfgIdx = updateA st.cfgIdx e.path (get_file_info e.attrs)) := by
  rw [processFile_eq]
  split_ifs with h1 h2 h3 h4
  · exact Or.inl rfl
  · exact Or.inl rfl
  · exact Or.inr ⟨h3, h4, rfl⟩
  · exact Or.inl rfl
  · exact Or.inl rfl

/-- Processing any later file preserves `unchangedRec` for a file, as long
as equal paths carry equal attributes. -/
theorem processFile_preserve_unch (cfg : BackupConfig) (e' e : FileEntry) (st : RunSt)
    (hcons : e'.path = e.path → e'.attrs = e.attrs)
    (h : unchangedRec st.cfgIdx e) : unchangedRec (processFile cfg e' st).cfgIdx e := by
  rcases processFile_cfgIdx_shape cfg e' st with heq | ⟨_, _, heq⟩
  · unfold unchangedRec
    rw [heq]
    exact h
  · unfold unchangedRec
    rw [heq]
    by_cases hp : e.path = e'.path
    · have hattrs : e'.attrs = e.attrs := hcons hp.symm
      apply should_backup_file_stored_current
      rw [hp, lookupA_updateA_self, hattrs]
    · rw [should_backup_file_congr _ st.cfgIdx _ _
        (lookupA_updateA_ne st.cfgIdx e'.path _ e.path hp)]
      exact h

theorem runL_preserve_unch (cfg : BackupConfig) (e : FileEntry) :
    ∀ (l : List FileEntry) (st : RunSt),
    (∀ e' ∈ l, e'.path = e.path → e'.attrs = e.attrs) →
    unchangedRec st.cfgIdx e → unchangedRec (runL cfg l st).cfgIdx e := by
  intro l
  induction l with
  | nil => intro st _ h; simpa [runL] using h
  | cons e₀ rest ih =>
    intro st hcons h
    rw [runL_cons]
    exact ih _ (fun e' he' => hcons e' (List.mem_cons_of_mem _ he'))
      (processFile_preserve_unch cfg e₀ e st (hcons e₀ (List.mem_cons_self _ _)) h)

/-- Processing a not-excluded file whose copy and stat succeed leaves it
reported unchanged (incremental mode). -/
theorem processFile_self_unch (cfg : BackupConfig) (e : FileEntry) (st : RunSt)
    (hinc : cfg.incremental = true)
    (h1 : should_exclude e.root cfg.exclude_patterns = false)
    (h2 : should_exclude e.path cfg.exclude_patterns = false)
    (hc : e.attrs.copyOk = true) (hs : e.attrs.statOk = true) :
    unchangedRec (processFile cfg e st).cfgIdx e := by
  by_cases hsb : should_backup_file st.cfgIdx e.path e.attrs = true
  · unfold unchangedRec
    rw [processFile_eq]
    simp only [h1, h2, Bool.or_self, if_false, hinc, hsb, Bool.not_true, Bool.and_false,
      hc, hs, if_true, Bool.false_eq_true]
    apply should_backup_file_stored_current
    exact lookupA_updateA_self st.cfgIdx e.path _
  · have hsb' : should_backup_file st.cfgIdx e.path e.attrs = false :=
      Bool.not_eq_true _ ▸ (by simpa using hsb)
    have : processFile cfg e st = st := by
      rw [processFile_eq]
      simp [h1, h2, hinc, hsb']
    rw [unchangedRec, this]
    exact hsb'

/-- After one pass of the file loop, every walked, not-excluded file whose
copy succeeded is reported unchanged by the detector against the final
index — provided equal paths carry equal attributes (a fixed filesystem)
and a successful copy implies a successful stat (`copy2` itself stats the
source, so on an unchanged filesystem `copyOk` entails `statOk`). -/
theorem runL_all_unch (cfg : BackupConfig) (hinc : cfg.incremental = true) :
    ∀ (l : List FileEntry) (st : RunSt),
    (∀ e e', e ∈ l → e' ∈ l → e.path = e'.path → e.attrs = e'.attrs) →
    (∀ e ∈ l, e.attrs.copyOk = true → e.attrs.statOk = true) →
    ∀ e ∈ l, should_exclude e.root cfg.exclude_patterns = false →
      should_exclude e.path cfg.exclude_patterns = false →
      e.attrs.copyOk = true → unchangedRec (runL cfg l st).cfgIdx e := by
  intro l
  induction l with
  | nil => intro st _ _ e he; cases he
  | cons e₀ rest ih =>
    intro st hcons hcoh e he h1 h2 hc
    rw [runL_cons]
    rcases List.mem_cons.mp he with rfl | hm
    · have hs : e.attrs.statOk = true := hcoh e (List.mem_cons_self _ _) hc
      exact runL_preserve_unch cfg e rest _
        (fun e' he' hp =>
          hcons e' e (List.mem_cons_of_mem _ he') (List.mem_cons_self _ _) hp)
        (processFile_self_unch cfg e st hinc h1 h2 hc hs)
    · exact ih _
        (fun a b ha hb => hcons a b (List.mem_cons_of_mem _ ha) (List.mem_cons_of_mem _ hb))
        (fun a ha => hcoh a (List.mem_cons_of_mem _ ha))
        e hm h1 h2 hc

/-- If every walked, not-excluded file with a succeeding copy is already
reported unchanged, the file loop copies nothing and leaves the index, the
counters and the copied list untouched. -/
theorem runL_noop (cfg : BackupConfig) (hinc : cfg.incremental = true) :
    ∀ (l : List FileEntry) (st : RunSt),
    (∀ e ∈ l, should_exclude e.root cfg.exclude_patterns = false →
      should_exclude e.path cfg.exclude_patterns = false →
      e.attrs.copyOk = true → unchangedRec st.cfgIdx e) →
    (runL cfg l st).cfgIdx = st.cfgIdx ∧
    (runL cfg l st).files_backed_up = st.files_backed_up ∧
    (runL cfg l st).copied = st.copied ∧
    (runL cfg l st).total_size = st.total_size := by
  intro l
  induction l with
  | nil => intro st _; exact ⟨rfl, rfl, rfl, rfl⟩
  | cons e₀ rest ih =>
    intro st hunch
    rw [runL_cons]
    by_cases h1 : should_exclude e₀.root cfg.exclude_patterns = true
    · have hstep : processFile cfg e₀ st = st := by
        rw [processFile_eq]; simp [h1]
      rw [hstep]
      exact ih st (fun e he => hunch e (List.mem_cons_of_mem _ he))
    · by_cases h2 : should_exclude e₀.path cfg.exclude_patterns = true
      · have hstep : processFile cfg e₀ st = st := by
          rw [processFile_eq]; simp [h2]
        rw [hstep]
        exact ih st (fun e he => hunch e (List.mem_cons_of_mem _ he))
      · have h1' : should_exclude e₀.root cfg.exclude_patterns = false := by
          simpa using h1
        have h2' : should_exclude e₀.path cfg.exclude_patterns = false := by
          simpa using h2
        by_cases hc : e₀.attrs.copyOk = true
        · have hu : unchangedRec st.cfgIdx e₀ :=
            hunch e₀ (List.mem_cons_self _ _) h1' h2' hc
          have hsbf : should_backup_file st.cfgIdx e₀.path e₀.attrs = false := hu
          have hstep : processFile cfg e₀ st = st := by
            rw [processFile_eq]
            simp [h1', h2', hinc, hsbf]
          rw [hstep]
          exact ih st (fun e he => hunch e (List.mem_cons_of_mem _ he))
        · -- the copy, if attempted, fails: only `attempted` can change
          have hc' : e₀.attrs.copyOk = false := by simpa using hc
          by_cases hsb : should_backup_file st.cfgIdx e₀.path e₀.attrs = true
          · have hstep : processFile cfg e₀ st =
                { st with attempted := st.attempted ++ [e₀.path] } := by
              rw [processFile_eq]
              simp [h1', h2', hinc, hsb, hc']
            rw [hstep]
            have := ih { st with attempted := st.attempted ++ [e₀.path] }
              (fun e he ha hb hcc => hunch e (List.mem_cons_of_mem _ he) ha hb hcc)
            simpa using this
          · have hstep : processFile cfg e₀ st = st := by
              rw [processFile_eq]
              simp [h1', h2', hinc, by simpa using hsb]
            rw [hstep]
            exact ih st (fun e he => hunch e (List.mem_cons_of_mem _ he))

-- ### Unfolding `create_backup` once the configuration is found

theorem create_backup_found (configs : List (PathStr × BackupConfig)) (index : ChangeIndex)
    (fs : PathStr → Option FForest) (dp : Bool) (name ts : PathStr) (cfg : BackupConfig)
    (hcfg : lookupA configs name = some cfg) :
    create_backup configs index fs dp name ts =
      ⟨true,
        (runL cfg (entriesOf cfg fs) ⟨0, 0, (lookupA index name).getD [], [], []⟩).files_backed_up,
        (runL cfg (entriesOf cfg fs) ⟨0, 0, (lookupA index name).getD [], [], []⟩).total_size,
        (runL cfg (entriesOf cfg fs) ⟨0, 0, (lookupA index name).getD [], [], []⟩).copied,
        (runL cfg (entriesOf cfg fs) ⟨0, 0, (lookupA index name).getD [], [], []⟩).attempted,
        updateA index name
          (runL cfg (entriesOf cfg fs) ⟨0, 0, (lookupA index name).getD [], [], []⟩).cfgIdx,
        name ++ '_' :: ts⟩ := by
  unfold create_backup
  rw [hcfg]

theorem create_backup_not_found (configs : List (PathStr × BackupConfig)) (index : ChangeIndex)
    (fs : PathStr → Option FForest) (dp : Bool) (name ts : PathStr)
    (hcfg : lookupA configs name = none) :
    create_backup configs index fs dp name ts = ⟨false, 0, 0, [], [], index, []⟩ := by
  unfold create_backup
  rw [hcfg]

-- ### C1

/-- **C1.** For every backup set run in incremental mode and every file
path, the change detector decides "copy" exactly when the path has no entry
in that set's change index, or the freshly computed content fingerprint
differs from the stored one, or the freshly computed modification time
differs from the stored one; in particular a difference in size alone, with
fingerprint and modification time equal to the stored record, does not
trigger a copy. -/
theorem claim_C1_change_detector (i : ConfigIndex) (p : PathStr) (a : FileAttrs) :
    (should_backup_file i p a = true ↔
      (lookupA i p = none ∨
        ∃ stored, lookupA i p = some stored ∧
          (recHash (get_file_info a) ≠ recHash stored ∨
            recMtime (get_file_info a) ≠ recMtime stored)))
    ∧ (∀ info : FileInfo, lookupA i p = some (some info) →
        a.statOk = true → calculate_file_hash a = info.hash → a.mtime = info.mtime →
        a.size ≠ info.size → should_backup_file i p a = false) := by
  constructor
  · unfold should_backup_file
    cases hl : lookupA i p with
    | none => simp
    | some stored =>
      simp only [Bool.or_eq_true, decide_eq_true_eq]
      constructor
      · intro h
        exact Or.inr ⟨stored, rfl, h⟩
      · rintro (hnone | ⟨s, hs, hdiff⟩)
        · exact absurd hnone (by simp)
        · obtain rfl : stored = s := by injection hs
          exact hdiff
  · intro info hl hs hh hm _
    unfold should_backup_file
    rw [hl]
    simp [get_file_info, hs, recHash, recMtime, hh, hm]

theorem claim_C1_witness :
    should_backup_file [("/s/f".data, some ⟨1, 5, "h"⟩)] "/s/f".data
      ⟨2, 5, "h", true, true, true⟩ = false :=
  (claim_C1_change_detector _ _ _).2 ⟨1, 5, "h"⟩ rfl rfl rfl rfl (by decide)

-- ### C9

/-- **C9.** If the exclude-pattern list of a backup set contains the empty
string, every path is excluded (the empty string is a substring of every
path), so a run of that backup set copies zero files. -/
theorem claim_C9_empty_pattern_excludes_all (configs : List (PathStr × BackupConfig))
    (index : ChangeIndex) (fs : PathStr → Option FForest) (dp : Bool)
    (name ts : PathStr) (cfg : BackupConfig)
    (hcfg : lookupA configs name = some cfg)
    (hpat : ([] : PathStr) ∈ cfg.exclude_patterns) :
    (∀ p : PathStr, should_exclude p cfg.exclude_patterns = true) ∧
    (create_backup configs index fs dp name ts).copied = [] ∧
    (create_backup configs index fs dp name ts).files_backed_up = 0 ∧
    (create_backup configs index fs dp name ts).success = true := by
  have hexcl : ∀ p : PathStr, should_exclude p cfg.exclude_patterns = true := by
    intro p
    unfold should_exclude
    rw [List.any_eq_true]
    exact ⟨[], hpat, hasSub_nil_left p⟩
  have hrun : ∀ (l : List FileEntry) (st : RunSt), runL cfg l st = st := by
    intro l
    induction l with
    | nil => intro st; rfl
    | cons e rest ih =>
      intro st
      rw [runL_cons]
      have hstep : processFile cfg e st = st := by
        rw [processFile_eq]
        simp [hexcl e.root]
      rw [hstep]
      exact ih st
  refine ⟨hexcl, ?_, ?_, ?_⟩ <;>
    rw [create_backup_found configs index fs dp name ts cfg hcfg, hrun]

theorem claim_C9_witness :
    (create_backup
      [("docs".data, ⟨"docs".data, ["/s".data], "/d".data, "@".data, true, true,
        [("".data : PathStr)], 10⟩)]
      [] (fun s => if s = "/s".data then
            some (.file "f".data ⟨1, 2, "h", true, true, true⟩ .nil) else none)
      false "docs".data "20260101".data).copied = [] :=
  (claim_C9_empty_pattern_excludes_all
    [("docs".data, ⟨"docs".data, ["/s".data], "/d".data, "@".data, true, true,
      [("".data : PathStr)], 10⟩)]
    [] (fun s => if s = "/s".data then
          some (.file "f".data ⟨1, 2, "h", true, true, true⟩ .nil) else none)
    false "docs".data "20260101".data
    ⟨"docs".data, ["/s".data], "/d".data, "@".data, true, true,
      [("".data : PathStr)], 10⟩
    (by decide) (by decide)).2.1

-- ### C4

/-- **C4.** For every directory whose textual path matches an exclude
pattern, no file located anywhere beneath that directory is copied into the
snapshot — regardless of how many files the subtree contains. (In the
source the `continue` on an excluded root does not prune `os.walk`'s
descent, but every descendant path textually extends the excluded
directory's path, so the same substring match excludes every file beneath
it; the observable subtree-pruning behavior follows.) -/
theorem claim_C4_excluded_dir_subtree (configs : List (PathStr × BackupConfig))
    (index : ChangeIndex) (fs : PathStr → Option FForest) (dp : Bool)
    (name ts : PathStr) (cfg : BackupConfig) (pat : PathStr)
    (s q : PathStr) (f ds : FForest)
    (hcfg : lookupA configs name = some cfg)
    (hpat : pat ∈ cfg.exclude_patterns)
    (hsrc : s ∈ cfg.source_dirs) (hfs : fs s = some f)
    (hdir : DirIn s f q ds)
    (hmatch : hasSub pat q = true) :
    ∀ e ∈ walkAt q ds, e.path ∉ (create_backup configs index fs dp name ts).copied := by
  intro e he hmem
  rw [create_backup_found configs index fs dp name ts cfg hcfg] at hmem
  obtain ⟨r, hr⟩ := walkAt_path_ext q ds e he
  have hex : should_exclude e.path cfg.exclude_patterns = true := by
    unfold should_exclude
    rw [List.any_eq_true]
    exact ⟨pat, hpat, by rw [hr]; exact hasSub_append r hmatch⟩
  rcases runL_copied_src cfg _ _ _ hmem with h0 | ⟨e', _, hpe, _, _, hnex⟩
  · simp at h0
  · rw [hpe] at hnex
    rw [hnex] at hex
    cases hex

theorem claim_C4_witness :
    ("/s/skip/f".data : PathStr) ∉
      (create_backup
        [("b".data, ⟨"b".data, ["/s".data], "/d".data, "@".data, true, true,
          ["skip".data], 10⟩)]
        [] (fun x => if x = "/s".data then
              some (.dir "skip".data (.file "f".data ⟨1, 2, "h", true, true, true⟩ .nil) .nil)
            else none)
        false "b".data "20260101".data).copied :=
  claim_C4_excluded_dir_subtree
    [("b".data, ⟨"b".data, ["/s".data], "/d".data, "@".data, true, true,
      ["skip".data], 10⟩)]
    [] (fun x => if x = "/s".data then
          some (.dir "skip".data (.file "f".data ⟨1, 2, "h", true, true, true⟩ .nil) .nil)
        else none)
    false "b".data "20260101".data
    ⟨"b".data, ["/s".data], "/d".data, "@".data, true, true, ["skip".data], 10⟩
    "skip".data "/s".data (pathJoin "/s".data "skip".data)
    (.dir "skip".data (.file "f".data ⟨1, 2, "h", true, true, true⟩ .nil) .nil)
    (.file "f".data ⟨1, 2, "h", true, true, true⟩ .nil)
    (by decide) (by decide) (by decide) (by decide)
    (DirIn.head "/s".data "skip".data _ _)
    (by decide)
    ⟨pathJoin "/s".data "skip".data,
      pathJoin (pathJoin "/s".data "skip".data) "f".data,
      ⟨1, 2, "h", true, true, true⟩⟩
    (by decide)

-- ### C2

/-- **C2.** Running the same backup set twice in immediate succession with
incremental mode enabled and no intervening filesystem changes copies zero
files on the second run, both runs report success, and the change index is
unchanged after the second run. (A fixed filesystem is expressed by using
the same `fs` for both runs, by equal paths carrying equal attributes, and
by `copyOk → statOk`: `shutil.copy2` itself stats the source file, so on an
unchanging filesystem a file whose copy succeeds also stats successfully.) -/
theorem claim_C2_second_run_copies_nothing (configs : List (PathStr × BackupConfig))
    (index : ChangeIndex) (fs : PathStr → Option FForest) (dp : Bool)
    (name ts₁ ts₂ : PathStr) (cfg : BackupConfig)
    (hcfg : lookupA configs name = some cfg)
    (hinc : cfg.incremental = true)
    (hcoh : ∀ e ∈ entriesOf cfg fs, e.attrs.copyOk = true → e.attrs.statOk = true)
    (hcons : ∀ e ∈ entriesOf cfg fs, ∀ e' ∈ entriesOf cfg fs,
      e.path = e'.path → e.attrs = e'.attrs) :
    (create_backup configs index fs dp name ts₁).success = true ∧
    (create_backup configs (create_backup configs index fs dp name ts₁).index
        fs dp name ts₂).success = true ∧
    (create_backup configs (create_backup configs index fs dp name ts₁).index
        fs dp name ts₂).files_backed_up = 0 ∧
    (create_backup configs (create_backup configs index fs dp name ts₁).index
        fs dp name ts₂).copied = [] ∧
    (create_backup configs (create_backup configs index fs dp name ts₁).index
        fs dp name ts₂).index = (create_backup configs index fs dp name ts₁).index := by
  have hfound1 := create_backup_found configs index fs dp name ts₁ cfg hcfg
  have hidx1 : (create_backup configs index fs dp name ts₁).index =
      updateA index name
        (runL cfg (entriesOf cfg fs) ⟨0, 0, (lookupA index name).getD [], [], []⟩).cfgIdx := by
    rw [hfound1]
  have hfound2 := create_backup_found configs
    (create_backup configs index fs dp name ts₁).index fs dp name ts₂ cfg hcfg
  rw [hidx1, lookupA_updateA_self] at hfound2
  have hunch := runL_all_unch cfg hinc (entriesOf cfg fs)
    ⟨0, 0, (lookupA index name).getD [], [], []⟩
    (fun e e' he he' => hcons e he e' he') hcoh
  have hnoop := runL_noop cfg hinc (entriesOf cfg fs)
    ⟨0, 0, (Option.some
      ((runL cfg (entriesOf cfg fs)
          ⟨0, 0, (lookupA index name).getD [], [], []⟩).cfgIdx)).getD [], [], []⟩
    (fun e he h1 h2 hc => hunch e he h1 h2 hc)
  rw [hidx1]
  refine ⟨by rw [hfound1], by rw [hfound2], ?_, ?_, ?_⟩
  · rw [hfound2]
    exact hnoop.2.1
  · rw [hfound2]
    exact hnoop.2.2.1
  · rw [hfound2]
    show updateA _ name _ = _
    rw [hnoop.1]
    exact updateA_updateA index name _ _

theorem claim_C2_witness :
    (create_backup
      [("b".data, ⟨"b".data, ["/s".data], "/d".data, "@".data, true, true, [], 10⟩)]
      []
      (fun x => if x = "/s".data then
          some (.file "f".data ⟨3, 10, "h", true, true, true⟩ .nil) else none)
      false "b".data "t1".data).success = true ∧
    (create_backup
      [("b".data, ⟨"b".data, ["/s".data], "/d".data, "@".data, true, true, [], 10⟩)]
      (create_backup
        [("b".data, ⟨"b".data, ["/s".data], "/d".data, "@".data, true, true, [], 10⟩)]
        []
        (fun x => if x = "/s".data then
            some (.file "f".data ⟨3, 10, "h", true, true, true⟩ .nil) else none)
        false "b".data "t1".data).index
      (fun x => if x = "/s".data then
          some (.file "f".data ⟨3, 10, "h", true, true, true⟩ .nil) else none)
      false "b".data "t2".data).files_backed_up = 0 :=
  ⟨(claim_C2_second_run_copies_nothing
      [("b".data, ⟨"b".data, ["/s".data], "/d".data, "@".data, true, true, [], 10⟩)]
      []
      (fun x => if x = "/s".data then
          some (.file "f".data ⟨3, 10, "h", true, true, true⟩ .nil) else none)
      false "b".data "t1".data "t2".data
      ⟨"b".data, ["/s".data], "/d".data, "@".data, true, true, [], 10⟩
      (by decide) rfl (by decide) (by decide)).1,
    (claim_C2_second_run_copies_nothing
      [("b".data, ⟨"b".data, ["/s".data], "/d".data, "@".data, true, true, [], 10⟩)]
      []
      (fun x => if x = "/s".data then
          some (.file "f".data ⟨3, 10, "h", true, true, true⟩ .nil) else none)
      false "b".data "t1".data "t2".data
      ⟨"b".data, ["/s".data], "/d".data, "@".data, true, true, [], 10⟩
      (by decide) rfl (by decide) (by decide)).2.2.1⟩

-- ### C10

/-- **C10.** A backup run never removes a key from the change index: other
backup sets' slices are untouched, every entry of the run set's slice whose
path is not successfully copied during this run is left unchanged (so
entries for files deleted from the source persist), and every pre-existing
key is still present afterwards. -/
theorem claim_C10_index_never_shrinks (configs : List (PathStr × BackupConfig))
    (index : ChangeIndex) (fs : PathStr → Option FForest) (dp : Bool) (name ts : PathStr) :
    (∀ n, n ≠ name →
      lookupA (create_backup configs index fs dp name ts).index n = lookupA index n)
    ∧ (∀ p, p ∉ (create_backup configs index fs dp name ts).copied →
        lookupA ((lookupA (create_backup configs index fs dp name ts).index name).getD []) p =
          lookupA ((lookupA index name).getD []) p)
    ∧ (∀ p r, lookupA ((lookupA index name).getD []) p = some r →
        ∃ r', lookupA
          ((lookupA (create_backup configs index fs dp name ts).index name).getD []) p =
          some r') := by
  cases hcfg : lookupA configs name with
  | none =>
    rw [create_backup_not_found configs index fs dp name ts hcfg]
    exact ⟨fun n _ => rfl, fun p _ => rfl, fun p r h => ⟨r, h⟩⟩
  | some cfg =>
    rw [create_backup_found configs index fs dp name ts cfg hcfg]
    refine ⟨?_, ?_, ?_⟩
    · intro n hn
      exact lookupA_updateA_ne index name _ n hn
    · intro p hp
      show lookupA ((lookupA (updateA index name _) name).getD []) p = _
      rw [lookupA_updateA_self]
      exact (runL_frame cfg _ ⟨0, 0, (lookupA index name).getD [], [], []⟩ p hp).1
    · intro p r h
      show ∃ r', lookupA ((lookupA (updateA index name _) name).getD []) p = some r'
      rw [lookupA_updateA_self]
      exact runL_keys cfg _ ⟨0, 0, (lookupA index name).getD [], [], []⟩ p r h

theorem claim_C10_witness :
    lookupA ((lookupA (create_backup
        [("b".data, ⟨"b".data, ["/s".data], "/d".data, "@".data, true, true, [], 10⟩)]
        [("b".data, [("/q".data, some ⟨1, 2, "x"⟩)])]
        (fun x => if x = "/s".data then
            some (.file "f".data ⟨3, 10, "h", true, true, true⟩ .nil) else none)
        false "b".data "t1".data).index "b".data).getD []) "/q".data =
      lookupA ((lookupA
        ([("b".data, [("/q".data, some ⟨1, 2, "x"⟩)])] : ChangeIndex) "b".data).getD [])
        "/q".data :=
  (claim_C10_index_never_shrinks
    [("b".data, ⟨"b".data, ["/s".data], "/d".data, "@".data, true, true, [], 10⟩)]
    [("b".data, [("/q".data, some ⟨1, 2, "x"⟩)])]
    (fun x => if x = "/s".data then
        some (.file "f".data ⟨3, 10, "h", true, true, true⟩ .nil) else none)
    false "b".data "t1".data).2.1 "/q".data (by decide)

-- ### C7

/-- **C7 (amended).** When the snapshot destination directory
`{name}_{timestamp}` already exists (two runs within the same second), the
run proceeds anyway: `mkdir` is called with `exist_ok=True`, the same
directory name is used without disambiguation, new files are merged into
the pre-existing directory, and the run still reports success. -/
theorem claim_C7_amended_run_merges (configs : List (PathStr × BackupConfig))
    (index : ChangeIndex) (fs : PathStr → Option FForest) (name ts : PathStr)
    (cfg : BackupConfig) (hcfg : lookupA configs name = some cfg) :
    create_backup configs index fs true name ts =
      create_backup configs index fs false name ts
    ∧ (create_backup configs index fs true name ts).success = true
    ∧ (create_backup configs index fs true name ts).snapshotDir = name ++ '_' :: ts := by
  refine ⟨rfl, ?_, ?_⟩ <;> rw [create_backup_found configs index fs true name ts cfg hcfg]

theorem claim_C7_amended_witness :
    (create_backup
      [("b".data, ⟨"b".data, ["/s".data], "/d".data, "@".data, true, true, [], 10⟩)]
      []
      (fun x => if x = "/s".data then
          some (.file "f".data ⟨3, 10, "h", true, true, true⟩ .nil) else none)
      true "b".data "t1".data).snapshotDir = "b".data ++ '_' :: "t1".data :=
  (claim_C7_amended_run_merges
    [("b".data, ⟨"b".data, ["/s".data], "/d".data, "@".data, true, true, [], 10⟩)]
    []
    (fun x => if x = "/s".data then
        some (.file "f".data ⟨3, 10, "h", true, true, true⟩ .nil) else none)
    "b".data "t1".data
    ⟨"b".data, ["/s".data], "/d".data, "@".data, true, true, [], 10⟩
    (by decide)).2.2

/-- **C7 counterexample.** A run whose `{name}_{timestamp}` destination
directory pre-exists neither fails fast nor disambiguates the snapshot
name: it reports success, keeps the colliding name, and still copies files
(merging them into the existing directory). -/
theorem claim_C7_counterexample :
    (create_backup
      [("b".data, ⟨"b".data, ["/s".data], "/d".data, "@".data, true, true, [], 10⟩)]
      []
      (fun x => if x = "/s".data then
          some (.file "f".data ⟨3, 10, "h", true, true, true⟩ .nil) else none)
      true "b".data "t1".data).success = true ∧
    (create_backup
      [("b".data, ⟨"b".data, ["/s".data], "/d".data, "@".data, true, true, [], 10⟩)]
      []
      (fun x => if x = "/s".data then
          some (.file "f".data ⟨3, 10, "h", true, true, true⟩ .nil) else none)
      true "b".data "t1".data).snapshotDir = "b_t1".data ∧
    (create_backup
      [("b".data, ⟨"b".data, ["/s".data], "/d".data, "@".data, true, true, [], 10⟩)]
      []
      (fun x => if x = "/s".data then
          some (.file "f".data ⟨3, 10, "h", true, true, true⟩ .nil) else none)
      true "b".data "t1".data).copied ≠ [] := by
  decide

-- ### C6

/-- **C6 (amended).** For every file that cannot be read or stat'ed during
change detection the run does not crash (the detector is total): the
fingerprint resolves to the empty-string sentinel and the stat record to
the empty record. Such a file is classified as changed whenever its stored
record is not itself the matching sentinel state: always when it has no
stored entry; always when it cannot be stat'ed but a non-empty record is
stored; when it cannot be read, whenever the stored fingerprint is
non-empty; and whenever the stored modification time differs from the
current one. (Only a stored record that already equals the freshly
computed sentinel record is classified unchanged — see the
counterexample.) -/
theorem claim_C6_amended_unreadable_changed (i : ConfigIndex) (p : PathStr) (a : FileAttrs) :
    (a.readOk = false → calculate_file_hash a = "")
    ∧ (a.statOk = false → get_file_info a = none)
    ∧ (lookupA i p = none → should_backup_file i p a = true)
    ∧ (∀ info : FileInfo, lookupA i p = some (some info) → a.statOk = false →
        should_backup_file i p a = true)
    ∧ (∀ info : FileInfo, lookupA i p = some (some info) → a.readOk = false →
        info.hash ≠ "" → should_backup_file i p a = true)
    ∧ (∀ info : FileInfo, lookupA i p = some (some info) → a.statOk = true →
        info.mtime ≠ a.mtime → should_backup_file i p a = true) := by
  refine ⟨?_, ?_, ?_, ?_, ?_, ?_⟩
  · intro h
    simp [calculate_file_hash, h]
  · intro h
    simp [get_file_info, h]
  · intro h
    unfold should_backup_file
    rw [h]
  · intro info hl hs
    unfold should_backup_file
    rw [hl]
    simp [get_file_info, hs, recHash, recMtime]
  · intro info hl hr hne
    unfold should_backup_file
    rw [hl]
    by_cases hs : a.statOk = true
    · simp only [get_file_info, hs, if_true, calculate_file_hash, hr, Bool.false_eq_true,
        if_false, recHash, recMtime, Option.map_some, Bool.or_eq_true, decide_eq_true_eq]
      exact Or.inl (by simpa using fun hcontra => hne hcontra.symm)
    · have hs' : a.statOk = false := by simpa using hs
      simp [get_file_info, hs', recHash, recMtime]
  · intro info hl hs hne
    unfold should_backup_file
    rw [hl]
    simp only [get_file_info, hs, if_true, recHash, recMtime, Option.map_some,
      Bool.or_eq_true, decide_eq_true_eq]
    exact Or.inr (by simpa using fun hcontra => hne hcontra.symm)

theorem claim_C6_amended_witness :
    should_backup_file [("/s/f".data, some ⟨1, 5, "abc"⟩)] "/s/f".data
      ⟨2, 7, "x", false, true, true⟩ = true :=
  (claim_C6_amended_unreadable_changed
    [("/s/f".data, some ⟨1, 5, "abc"⟩)] "/s/f".data
    ⟨2, 7, "x", false, true, true⟩).2.2.2.2.1 ⟨1, 5, "abc"⟩ rfl rfl (by decide)

/-- **C6 counterexample.** A file that cannot be read (`readOk = false`)
whose stored record already carries the empty-string sentinel fingerprint
and the same modification time is classified as *unchanged* by the change
detector, and a run of the backup set attempts no copy of it — refuting
the claim that every unreadable file is recorded as changed and a copy is
attempted. -/
theorem claim_C6_counterexample :
    (⟨2, 5, "h", false, true, true⟩ : FileAttrs).readOk = false ∧
    should_backup_file [("/s/f".data, some ⟨1, 5, ""⟩)] "/s/f".data
      ⟨2, 5, "h", false, true, true⟩ = false ∧
    (create_backup
      [("b".data, ⟨"b".data, ["/s".data], "/d".data, "@".data, true, true, [], 10⟩)]
      [("b".data, [("/s/f".data, some ⟨1, 5, ""⟩)])]
      (fun x => if x = "/s".data then
          some (.file "f".data ⟨2, 5, "h", false, true, true⟩ .nil) else none)
      false "b".data "t1".data).attempted = [] := by
  decide

-- ### C5: one file's copy failure does not disturb the rest of the run

theorem processFile_cfgIdx_agree (cfg : BackupConfig) (e : FileEntry) (st : RunSt)
    (q : PathStr) (hq : q ≠ e.path) :
    lookupA (processFile cfg e st).cfgIdx q = lookupA st.cfgIdx q := by
  rcases processFile_cfgIdx_shape cfg e st with h | ⟨_, _, h⟩
  · rw [h]
  · rw [h]
    exact lookupA_updateA_ne _ _ _ _ hq

theorem processFile_copied_shape (cfg : BackupConfig) (e : FileEntry) (st : RunSt) :
    (processFile cfg e st).copied = st.copied ∨
    (processFile cfg e st).copied = st.copied ++ [e.path] := by
  rw [processFile_eq]
  split_ifs <;> simp

/-- Lockstep simulation: two file lists that agree on roots, paths and on
the attributes of every file except (possibly) the one at path `p0`
produce runs whose index slices and copied lists agree away from `p0`. -/
theorem runL_sim (cfg : BackupConfig) (p0 : PathStr) :
    ∀ (l₁ l₂ : List FileEntry) (st₁ st₂ : RunSt),
    List.Forall₂ (fun e₁ e₂ : FileEntry => e₁.root = e₂.root ∧ e₁.path = e₂.path ∧
      (e₁.path ≠ p0 → e₁.attrs = e₂.attrs)) l₁ l₂ →
    (∀ q, q ≠ p0 → lookupA st₁.cfgIdx q = lookupA st₂.cfgIdx q) →
    (∀ q, q ≠ p0 → (q ∈ st₁.copied ↔ q ∈ st₂.copied)) →
    (∀ q, q ≠ p0 → lookupA (runL cfg l₁ st₁).cfgIdx q = lookupA (runL cfg l₂ st₂).cfgIdx q) ∧
    (∀ q, q ≠ p0 → (q ∈ (runL cfg l₁ st₁).copied ↔ q ∈ (runL cfg l₂ st₂).copied)) := by
  intro l₁ l₂ st₁ st₂ hrel
  induction hrel generalizing st₁ st₂ with
  | nil =>
    intro hidx hcop
    exact ⟨hidx, hcop⟩
  | @cons a b l₁' l₂' hab hrest ih =>
    intro hidx hcop
    rw [runL_cons, runL_cons]
    obtain ⟨hroot, hpath, hattrs⟩ := hab
    by_cases hp : a.path = p0
    · -- both steps can only touch the state at path p0
      apply ih
      · intro q hq
        have hq₁ : q ≠ a.path := by rw [hp]; exact hq
        have hq₂ : q ≠ b.path := by rw [← hpath, hp]; exact hq
        rw [processFile_cfgIdx_agree cfg a st₁ q hq₁,
          processFile_cfgIdx_agree cfg b st₂ q hq₂]
        exact hidx q hq
      · intro q hq
        have hq₁ : q ≠ a.path := by rw [hp]; exact hq
        have hq₂ : q ≠ b.path := by rw [← hpath, hp]; exact hq
        have h₁ := processFile_copied_shape cfg a st₁
        have h₂ := processFile_copied_shape cfg b st₂
        rcases h₁ with h₁ | h₁ <;> rcases h₂ with h₂ | h₂ <;>
          rw [h₁, h₂] <;> simp [List.mem_append, hq₁, hq₂, hcop q hq]
    · -- the two files are identical, and the detector sees equal lookups
      have hattrs' : a.attrs = b.attrs := hattrs hp
      have hsbf : should_backup_file st₂.cfgIdx a.path a.attrs =
          should_backup_file st₁.cfgIdx a.path a.attrs :=
        should_backup_file_congr _ _ _ _ (hidx a.path hp).symm
      apply ih
      · intro q hq
        rw [processFile_eq, processFile_eq, ← hroot, ← hpath, ← hattrs', hsbf]
        split_ifs
        · exact hidx q hq
        · exact hidx q hq
        · by_cases hqa : q = a.path
          · rw [hqa, lookupA_updateA_self, lookupA_updateA_self]
          · rw [lookupA_updateA_ne _ _ _ _ hqa, lookupA_updateA_ne _ _ _ _ hqa]
            exact hidx q hq
        · exact hidx q hq
        · exact hidx q hq
      · intro q hq
        rw [processFile_eq, processFile_eq, ← hroot, ← hpath, ← hattrs', hsbf]
        split_ifs
        · exact hcop q hq
        · exact hcop q hq
        · simp [List.mem_append, hcop q hq]
        · simp [List.mem_append, hcop q hq]
        · exact hcop q hq

/-- **C5.** If one qualifying file among many fails to copy due to an I/O
error, the run continues: it reports overall success, every other file is
copied exactly as it would have been had that file's copy succeeded, the
files-copied count equals the number of successful copies, and every
copied path comes from a walked file whose copy succeeded. (`fs₁`/`fs₂`
are two filesystems identical except possibly for the copy outcome — or
any attribute — of the single file at path `p0`.) -/
theorem claim_C5_single_failure_isolated (configs : List (PathStr × BackupConfig))
    (index : ChangeIndex) (fs₁ fs₂ : PathStr → Option FForest) (dp : Bool)
    (name ts : PathStr) (cfg : BackupConfig) (p0 : PathStr)
    (hcfg : lookupA configs name = some cfg)
    (hrel : List.Forall₂ (fun e₁ e₂ : FileEntry => e₁.root = e₂.root ∧ e₁.path = e₂.path ∧
      (e₁.path ≠ p0 → e₁.attrs = e₂.attrs)) (entriesOf cfg fs₁) (entriesOf cfg fs₂)) :
    (create_backup configs index fs₁ dp name ts).success = true ∧
    (create_backup configs index fs₂ dp name ts).success = true ∧
    (∀ q, q ≠ p0 → (q ∈ (create_backup configs index fs₁ dp name ts).copied ↔
        q ∈ (create_backup configs index fs₂ dp name ts).copied)) ∧
    (create_backup configs index fs₁ dp name ts).files_backed_up =
      (create_backup configs index fs₁ dp name ts).copied.length ∧
    (∀ q ∈ (create_backup configs index fs₁ dp name ts).copied,
      ∃ e, e ∈ entriesOf cfg fs₁ ∧ e.path = q ∧ e.attrs.copyOk = true) := by
  have hsim := runL_sim cfg p0 (entriesOf cfg fs₁) (entriesOf cfg fs₂)
    ⟨0, 0, (lookupA index name).getD [], [], []⟩
    ⟨0, 0, (lookupA index name).getD [], [], []⟩
    hrel (fun _ _ => rfl) (fun _ _ => Iff.rfl)
  refine ⟨by rw [create_backup_found configs index fs₁ dp name ts cfg hcfg],
    by rw [create_backup_found configs index fs₂ dp name ts cfg hcfg], ?_, ?_, ?_⟩
  · intro q hq
    rw [create_backup_found configs index fs₁ dp name ts cfg hcfg,
      create_backup_found configs index fs₂ dp name ts cfg hcfg]
    exact hsim.2 q hq
  · rw [create_backup_found configs index fs₁ dp name ts cfg hcfg]
    exact runL_count cfg _ _ rfl
  · intro q hq
    rw [create_backup_found configs index fs₁ dp name ts cfg hcfg] at hq
    rcases runL_copied_src cfg _ _ q hq with h0 | ⟨e, he, hpath, hcopy, _, _⟩
    · simp at h0
    · exact ⟨e, he, hpath, hcopy⟩

theorem claim_C5_witness :
    ("/s/f".data ∈ (create_backup
        [("b".data, ⟨"b".data, ["/s".data], "/d".data, "@".data, true, true, [], 10⟩)]
        []
        (fun x => if x = "/s".data then
            some (.file "f".data ⟨3, 10, "h", true, true, true⟩
              (.file "g".data ⟨4, 11, "g", true, true, true⟩ .nil)) else none)
        false "b".data "t1".data).copied ↔
      "/s/f".data ∈ (create_backup
        [("b".data, ⟨"b".data, ["/s".data], "/d".data, "@".data, true, true, [], 10⟩)]
        []
        (fun x => if x = "/s".data then
            some (.file "f".data ⟨3, 10, "h", true, true, true⟩
              (.file "g".data ⟨4, 11, "g", true, true, false⟩ .nil)) else none)
        false "b".data "t1".data).copied) :=
  (claim_C5_single_failure_isolated
    [("b".data, ⟨"b".data, ["/s".data], "/d".data, "@".data, true, true, [], 10⟩)]
    []
    (fun x => if x = "/s".data then
        some (.file "f".data ⟨3, 10, "h", true, true, true⟩
          (.file "g".data ⟨4, 11, "g", true, true, true⟩ .nil)) else none)
    (fun x => if x = "/s".data then
        some (.file "f".data ⟨3, 10, "h", true, true, true⟩
          (.file "g".data ⟨4, 11, "g", true, true, false⟩ .nil)) else none)
    false "b".data "t1".data
    ⟨"b".data, ["/s".data], "/d".data, "@".data, true, true, [], 10⟩
    "/s/g".data
    (by decide)
    (List.Forall₂.cons ⟨rfl, rfl, fun _ => rfl⟩
      (List.Forall₂.cons ⟨rfl, rfl, fun h => absurd rfl h⟩ List.Forall₂.nil))).2.2.1
    "/s/f".data (by decide)

-- ### C3 and C8: the retention manager

theorem pairwise_strict_of_sorted_ne (s : List DestEntry)
    (hs : List.Pairwise mtimeGE s)
    (hne : List.Pairwise (fun a b : DestEntry => a.mtime ≠ b.mtime) s) :
    List.Pairwise (fun a b : DestEntry => b.mtime < a.mtime) s := by
  induction s with
  | nil => exact List.Pairwise.nil
  | cons a t ih =>
    rw [List.pairwise_cons] at hs hne ⊢
    exact ⟨fun b hb => Nat.lt_of_le_of_ne (hs.1 b hb) fun hc => hne.1 b hb hc.symm,
      ih hs.2 hne.2⟩

/-- In a strictly descending list, an element is among the first `m` iff
fewer than `m` elements beat its sort key. -/
theorem mem_take_iff_rank_lt :
    ∀ (s : List DestEntry), List.Pairwise (fun a b : DestEntry => b.mtime < a.mtime) s →
    ∀ (m : Nat) (e : DestEntry), e ∈ s →
      (e ∈ s.take m ↔ (s.filter fun x => decide (e.mtime < x.mtime)).length < m) := by
  intro s
  induction s with
  | nil => intro _ m e he; cases he
  | cons a t ih =>
    intro hsort m e he
    rw [List.pairwise_cons] at hsort
    have ha : ∀ x ∈ t, x.mtime < a.mtime := hsort.1
    cases m with
    | zero => simp
    | succ m' =>
      rcases List.mem_cons.mp he with rfl | het
      · have hfilter : ((e :: t).filter fun x => decide (e.mtime < x.mtime)) = [] := by
          rw [List.filter_eq_nil_iff]
          intro x hx
          rcases List.mem_cons.mp hx with rfl | hxt
          · simp
          · simp only [decide_eq_true_eq]
            exact Nat.not_lt.mpr (Nat.le_of_lt (ha x hxt))
        simp [hfilter]
      · have helt : e.mtime < a.mtime := ha e het
        have hea : e ≠ a := by
          intro hc
          rw [hc] at helt
          exact absurd helt (Nat.lt_irrefl _)
        have hfilter : ((a :: t).filter fun x => decide (e.mtime < x.mtime)) =
            a :: (t.filter fun x => decide (e.mtime < x.mtime)) := by
          simp [List.filter_cons, helt]
        rw [List.take_succ_cons, hfilter]
        simp only [List.mem_cons, hea, false_or, List.length_cons]
        rw [ih hsort.2 m' e het]
        exact ⟨fun h => Nat.succ_lt_succ h, fun h => Nat.lt_of_succ_lt_succ h⟩

/-- **C3.** After a run of a backup set with retention cap
`max_backups = m`, if the destination holds more than `m` entries whose
names start with `{name}_` (the newly created snapshot included among
them), all deletions succeed and modification times are distinct, then
exactly the `m` most recently modified of those entries are kept, every
older one is deleted, and each deletion is recursive exactly when the
entry is a directory. -/
theorem claim_C3_retention_cap (cfg : BackupConfig) (entries : List DestEntry)
    (hk : cfg.max_backups < (cleanup_old_backups cfg entries).considered.length)
    (hok : ∀ e ∈ (cleanup_old_backups cfg entries).considered, e.removeOk = true)
    (hd : (cleanup_old_backups cfg entries).considered.Pairwise
      (fun a b => a.mtime ≠ b.mtime)) :
    (cleanup_old_backups cfg entries).kept.length = cfg.max_backups
    ∧ (∀ e ∈ (cleanup_old_backups cfg entries).considered,
        (e ∈ (cleanup_old_backups cfg entries).kept ↔
          ((cleanup_old_backups cfg entries).considered.filter
            (fun x => decide (e.mtime < x.mtime))).length < cfg.max_backups))
    ∧ (∀ e ∈ (cleanup_old_backups cfg entries).considered,
        e ∉ (cleanup_old_backups cfg entries).kept →
          e ∈ (cleanup_old_backups cfg entries).deleted)
    ∧ (∀ e ∈ (cleanup_old_backups cfg entries).kept,
        e ∉ (cleanup_old_backups cfg entries).deleted)
    ∧ (∀ pr ∈ (cleanup_old_backups cfg entries).deletions, pr.2 = pr.1.isDirE) := by
  have hperm : ((cleanup_old_backups cfg entries).considered.insertionSort mtimeGE).Perm
      (cleanup_old_backups cfg entries).considered :=
    List.perm_insertionSort mtimeGE _
  have hsorted : List.Pairwise mtimeGE
      ((cleanup_old_backups cfg entries).considered.insertionSort mtimeGE) :=
    List.sorted_insertionSort mtimeGE _
  have hne_s : ((cleanup_old_backups cfg entries).considered.insertionSort
      mtimeGE).Pairwise (fun a b : DestEntry => a.mtime ≠ b.mtime) :=
    (hperm.pairwise_iff fun h => h.symm).2 hd
  have hstrict := pairwise_strict_of_sorted_ne _ hsorted hne_s
  have hlen_s : ((cleanup_old_backups cfg entries).considered.insertionSort
      mtimeGE).length = (cleanup_old_backups cfg entries).considered.length :=
    hperm.length_eq
  have hsortEq : (cleanup_old_backups cfg entries).sorted =
      (cleanup_old_backups cfg entries).considered.insertionSort mtimeGE := rfl
  have hkeptEq : (cleanup_old_backups cfg entries).kept =
      ((cleanup_old_backups cfg entries).considered.insertionSort mtimeGE).take
        cfg.max_backups := rfl
  have hexcessEq : (cleanup_old_backups cfg entries).excess =
      ((cleanup_old_backups cfg entries).considered.insertionSort mtimeGE).drop
        cfg.max_backups := rfl
  have hdelEq : (cleanup_old_backups cfg entries).deleted =
      (((cleanup_old_backups cfg entries).considered.insertionSort mtimeGE).drop
        cfg.max_backups).filter (fun e => e.removeOk) := rfl
  have hnodup : ((cleanup_old_backups cfg entries).considered.insertionSort
      mtimeGE).Nodup :=
    hstrict.imp fun {a b} h => by
      intro hc
      rw [hc] at h
      exact absurd h (Nat.lt_irrefl _)
  refine ⟨?_, ?_, ?_, ?_, ?_⟩
  · rw [hkeptEq, List.length_take, hlen_s]
    exact Nat.min_eq_left (Nat.le_of_lt hk)
  · intro e he
    have hes : e ∈ (cleanup_old_backups cfg entries).considered.insertionSort mtimeGE :=
      hperm.mem_iff.2 he
    have hflen : (((cleanup_old_backups cfg entries).considered.insertionSort
        mtimeGE).filter fun x => decide (e.mtime < x.mtime)).length =
        ((cleanup_old_backups cfg entries).considered.filter
          fun x => decide (e.mtime < x.mtime)).length :=
      (hperm.filter _).length_eq
    rw [hkeptEq, mem_take_iff_rank_lt _ hstrict cfg.max_backups e hes, hflen]
  · intro e he hnk
    have hes : e ∈ (cleanup_old_backups cfg entries).considered.insertionSort mtimeGE :=
      hperm.mem_iff.2 he
    rw [hdelEq, List.mem_filter]
    refine ⟨?_, hok e he⟩
    have hsplit := List.take_append_drop cfg.max_backups
      ((cleanup_old_backups cfg entries).considered.insertionSort mtimeGE)
    rw [← hsplit, List.mem_append] at hes
    rcases hes with h | h
    · exact absurd h (by rw [hkeptEq] at hnk; exact hnk)
    · exact h
  · intro e hek hed
    rw [hdelEq] at hed
    have hdrop : e ∈ ((cleanup_old_backups cfg entries).considered.insertionSort
        mtimeGE).drop cfg.max_backups := (List.mem_filter.1 hed).1
    rw [hkeptEq] at hek
    exact List.disjoint_take_drop hnodup (Nat.le_refl _) hek hdrop
  · intro pr hpr
    have : (cleanup_old_backups cfg entries).deletions =
        ((((cleanup_old_backups cfg entries).considered.insertionSort mtimeGE).drop
          cfg.max_backups).filter (fun e => e.removeOk)).map
          (fun e => (e, e.isDirE)) := rfl
    rw [this] at hpr
    obtain ⟨e, _, rfl⟩ := List.mem_map.1 hpr
    rfl

theorem claim_C3_witness :
    (cleanup_old_backups
      ⟨"b".data, ["/s".data], "/d".data, "@".data, true, true, [], 3⟩
      [⟨"b_1".data, 11, true, true⟩, ⟨"b_2".data, 12, true, true⟩,
        ⟨"b_3".data, 13, false, true⟩, ⟨"b_4".data, 14, true, true⟩,
        ⟨"b_5".data, 15, true, true⟩, ⟨"b_6".data, 16, true, true⟩]).kept.length = 3 :=
  (claim_C3_retention_cap
    ⟨"b".data, ["/s".data], "/d".data, "@".data, true, true, [], 3⟩
    [⟨"b_1".data, 11, true, true⟩, ⟨"b_2".data, 12, true, true⟩,
      ⟨"b_3".data, 13, false, true⟩, ⟨"b_4".data, 14, true, true⟩,
      ⟨"b_5".data, 15, true, true⟩, ⟨"b_6".data, 16, true, true⟩]
    (by decide) (by decide) (by decide)).1

/-- **C8.** Pruning for a backup set named `X` considers exactly the
destination entries whose name starts with `X_` — including snapshots of
any other backup set whose own name begins with `X_`, since that set's
snapshot names `{otherName}_{timestamp}` also start with `X_` — and the
entries it deletes are precisely the considered entries beyond the
retention cap whose deletion succeeds. -/
theorem claim_C8_prefix_captures_other_sets (cfg : BackupConfig) (entries : List DestEntry) :
    (∀ e, e ∈ (cleanup_old_backups cfg entries).considered ↔
      (e ∈ entries ∧ leadsB (cfg.name ++ ['_']) e.name = true))
    ∧ (∀ other ts : PathStr, leadsB (cfg.name ++ ['_']) other = true →
        leadsB (cfg.name ++ ['_']) (other ++ '_' :: ts) = true)
    ∧ ((cleanup_old_backups cfg entries).deleted =
        (((cleanup_old_backups cfg entries).sorted.drop cfg.max_backups).filter
          (fun e => e.removeOk))) := by
  refine ⟨?_, ?_, rfl⟩
  · intro e
    exact List.mem_filter
  · intro other ts h
    exact leadsB_append ('_' :: ts) h

theorem claim_C8_witness :
    (⟨"docs_extra_20260101".data, 5, true, true⟩ : DestEntry) ∈
      (cleanup_old_backups
        ⟨"docs".data, ["/s".data], "/d".data, "@".data, true, true, [], 1⟩
        [⟨"docs_20260102".data, 10, true, true⟩,
          ⟨"docs_extra_20260101".data, 5, true, true⟩]).considered :=
  ((claim_C8_prefix_captures_other_sets
    ⟨"docs".data, ["/s".data], "/d".data, "@".data, true, true, [], 1⟩
    [⟨"docs_20260102".data, 10, true, true⟩,
      ⟨"docs_extra_20260101".data, 5, true, true⟩]).1
    ⟨"docs_extra_20260101".data, 5, true, true⟩).2 ⟨by decide, by decide⟩
